import Mathlib

/-!
Shallow embedding of the flipdot driver (drewmcdonald/flipdot) and proofs
about it.

Conventions of the embedding:
 - machine bytes and pixels are `Nat` (bytes are values `< 256` produced by
   the packing code itself);
 - wall-clock readings of `time.time()` are explicit `ℚ` arguments threaded
   through the functions that read the clock;
 - Python methods that mutate `self` become functions returning the updated
   structure;
 - Python code that raises on invalid dimensions returns `Option`;
 - base64 transport is omitted: `Frame.data` holds the already decoded bytes
   (`decode_data` in the source), which is faithful because b64decode/encode
   round-trip.
-/

/-- Byte accumulation shared by the two bit-packing loops in
`src/flipdot/hardware.py` (`pack_bits_little_endian` and the per-column loop
of `FlippyModule.fetch_serial_command`): both set bit `j` of the byte when
the j-th listed bit is truthy (`byte |= 1 << j`).  LSB first. -/
def packBitsLSB : List Nat → Nat
  | [] => 0
  | b :: bs => (if b ≠ 0 then 1 else 0) + 2 * packBitsLSB bs

/-- `pack_bits_little_endian` from `src/flipdot/hardware.py`: chunk the bit
list into groups of 8 (the inner `for j in range(8)` with the
`i + j < len(bits)` guard makes the final chunk shorter when fewer than 8
bits remain), each chunk becoming one byte, LSB first.  Written by
structural recursion; `pack_bits_chunk` below restates it as the
take-8/drop-8 chunking of the source's outer `for i in range(0, len, 8)`
loop. -/
def pack_bits_little_endian : List Nat → List Nat
  | [] => []
  | b0 :: b1 :: b2 :: b3 :: b4 :: b5 :: b6 :: b7 :: rest =>
    packBitsLSB [b0, b1, b2, b3, b4, b5, b6, b7] :: pack_bits_little_endian rest
  | bits => [packBitsLSB bits]

/-- The structural definition above is exactly the source's chunking: one
byte from the first (up to) 8 bits, then recurse on the rest. -/
theorem pack_bits_chunk (bits : List Nat) (h : bits ≠ []) :
    pack_bits_little_endian bits =
      packBitsLSB (bits.take 8) :: pack_bits_little_endian (bits.drop 8) := by
  match bits with
  | [] => exact absurd rfl h
  | [b0] => rfl
  | [b0, b1] => rfl
  | [b0, b1, b2] => rfl
  | [b0, b1, b2, b3] => rfl
  | [b0, b1, b2, b3, b4] => rfl
  | [b0, b1, b2, b3, b4, b5] => rfl
  | [b0, b1, b2, b3, b4, b5, b6] => rfl
  | b0 :: b1 :: b2 :: b3 :: b4 :: b5 :: b6 :: b7 :: rest => rfl

/-- One bit read of `Frame.to_bit_array` in `src/flipdot/driver/models.py`:
`byte_idx = k // 8`, `bit_pos = k % 8`, read `(data[byte_idx] >> bit_pos) & 1`
when `byte_idx < len(data)`, else 0. -/
def bitAt (data : List Nat) (k : Nat) : Nat :=
  if k / 8 < data.length then ((data.getD (k / 8) 0) >>> (k % 8)) &&& 1 else 0

/-- `Frame` from `src/flipdot/driver/models.py` (`data` is the decoded
`data_b64`; pydantic enforces `width > 0`, `height > 0`,
`duration_ms ≥ 0` at construction). -/
structure Frame where
  data : List Nat
  width : Nat
  height : Nat
  duration_ms : Option Nat
deriving DecidableEq, Repr

/-- `Frame.to_bit_array` from `src/flipdot/driver/models.py`: `height` rows of
`width` bits, read row-major with a running bit index `i * width + j`. -/
def Frame.to_bit_array (f : Frame) : List (List Nat) :=
  (List.range f.height).map fun i =>
    (List.range f.width).map fun j => bitAt f.data (i * f.width + j)

/-- Serial protocol constants from `src/flipdot/hardware.py`. -/
def START_BYTES_FLUSH : List Nat := [0x80, 0x83]

/-- Start marker for a buffered (non-flushing) module update. -/
def START_BYTES_BUFFER : List Nat := [0x80, 0x84]

/-- End-of-command marker. -/
def END_BYTES : List Nat := [0x8F]

/-- `FlippyModule` from `src/flipdot/hardware.py`: one tile.  `content` is
the flat row-major bit list (length `width * height` for every module built
by the code). -/
structure FlippyModule where
  width : Nat
  height : Nat
  address : Nat
  content : List Nat
deriving DecidableEq, Repr

/-- `FlippyModule.set_content`: validate the 2-D shape, then store the
row-major flattening (the Python `flat_content.extend(row)` loop); dimension
mismatches raise `ValueError` in the source, modelled as `none`. -/
def FlippyModule.set_content (m : FlippyModule) (content : List (List Nat)) :
    Option FlippyModule :=
  if content.length = m.height ∧ ∀ row ∈ content, row.length = m.width then
    some { m with content := content.flatten }
  else none

/-- `FlippyModule.fetch_serial_command`: start marker, address byte, one
payload byte per column (column bits top→bottom, packed LSB first by the
`byte_val |= 1 << bit_pos` loop), end marker.  The source indexes
`self.content[row * width + col]`; on the states the code builds the index
is always in bounds, so `getD _ 0` reads the same value. -/
def FlippyModule.fetch_serial_command (m : FlippyModule) (flush : Bool) : List Nat :=
  let start_bytes := if flush then START_BYTES_FLUSH else START_BYTES_BUFFER
  let packed_bits := (List.range m.width).map fun col =>
    packBitsLSB ((List.range m.height).map fun row =>
      m.content.getD (row * m.width + col) 0)
  start_bytes ++ m.address :: packed_bits ++ END_BYTES

/-- `Panel` from `src/flipdot/hardware.py`, reduced to its configuration:
the module grid layout (row-major 2-D list of addresses) and the per-module
pixel dimensions.  The stored `modules` array only caches content between
calls and does not affect `set_content`'s return value. -/
structure Panel where
  layout : List (List Nat)
  module_width : Nat
  module_height : Nat
deriving DecidableEq, Repr

/-- Number of module rows. -/
def Panel.n_rows (p : Panel) : Nat := p.layout.length

/-- Number of module columns (the constructor validates the layout is
rectangular, so row 0 is representative). -/
def Panel.n_cols (p : Panel) : Nat := (p.layout.headD []).length

/-- Total pixel width of the panel. -/
def Panel.total_width (p : Panel) : Nat := p.module_width * p.n_cols

/-- Total pixel height of the panel. -/
def Panel.total_height (p : Panel) : Nat := p.module_height * p.n_rows

/-- The sub-matrix of rows `[r0, r0+h)` and columns `[c0, c0+w)`, as sliced
by `Panel.set_content` (`matrix_data[row_start:row_end]` and
`row[col_start:col_end]`). -/
def subMatrix (matrix : List (List Nat)) (r0 h c0 w : Nat) : List (List Nat) :=
  ((matrix.drop r0).take h).map fun row => (row.drop c0).take w

/-- `Panel.set_content` from `src/flipdot/hardware.py`: validate the total
dimensions (`ValueError`, i.e. `none`, otherwise), slice the matrix into one
sub-matrix per module, store each in its module, then concatenate
`fetch_serial_command()` (with the default `flush=True`) over the modules in
row-major grid order.  The per-module `FlippyModule.set_content` validation
always succeeds here because the panel validated the full matrix, so its
flattening `.flatten` is inlined. -/
def Panel.set_content (p : Panel) (matrix : List (List Nat)) : Option (List Nat) :=
  if matrix.length = p.total_height ∧ ∀ row ∈ matrix, row.length = p.total_width then
    some (((List.range p.n_rows).map fun ri =>
      ((List.range p.n_cols).map fun ci =>
        let m : FlippyModule :=
          { width := p.module_width, height := p.module_height,
            address := (p.layout.getD ri []).getD ci 0,
            content := (subMatrix matrix (ri * p.module_height) p.module_height
              (ci * p.module_width) p.module_width).flatten }
        m.fetch_serial_command true).flatten).flatten)
  else none

/-- `PlaybackMode` from `src/flipdot/driver/models.py` (pydantic enforces
`0 ≤ priority ≤ 99`, `loop_count ≥ 1` and `loop_count → loop` at
construction). -/
structure PlaybackMode where
  loop : Bool
  loop_count : Option Nat
  priority : Nat
  interruptible : Bool
deriving DecidableEq, Repr

/-- `Content` from `src/flipdot/driver/models.py` (pydantic enforces
`frames ≠ []` and uniform frame dimensions at construction). -/
structure Content where
  content_id : String
  frames : List Frame
  playback : PlaybackMode
deriving DecidableEq, Repr

/-- `ContentState` from `src/flipdot/driver/queue.py`.  `frame_start_time`,
`paused_at` and `time_paused` hold `time.time()` readings / durations in
seconds, modelled as `ℚ`. -/
structure ContentState where
  content : Content
  frame_index : Nat
  loop_count : Nat
  frame_start_time : ℚ
  paused : Bool
  paused_at : Option ℚ
  time_paused : ℚ
deriving DecidableEq, Repr

/-- `ContentState.__init__(content)`: fresh state at clock reading `now`. -/
def ContentState.init (now : ℚ) (c : Content) : ContentState :=
  { content := c
    frame_index := 0
    loop_count := 0
    frame_start_time := now
    paused := false
    paused_at := none
    time_paused := 0 }

/-- `ContentState.current_frame`; the source indexes
`self.content.frames[self.frame_index]` and would raise `IndexError` out of
bounds, which never happens for the states the queue builds (pydantic
guarantees `frames ≠ []` and the queue keeps `frame_index < len(frames)`). -/
def ContentState.current_frame? (s : ContentState) : Option Frame :=
  s.content.frames.get? s.frame_index

/-- `ContentState.is_complete` from `src/flipdot/driver/queue.py`.  Note the
Python guard `self.frame_index >= len(self.content.frames) - 1` equals the
truncated-subtraction comparison below for every list (pydantic guarantees
`frames ≠ []` anyway). -/
def ContentState.is_complete (s : ContentState) : Bool :=
  if s.paused then false
  else if s.content.frames.length - 1 ≤ s.frame_index then
    if !s.content.playback.loop then true
    else
      match s.content.playback.loop_count with
      | some limit => decide (limit ≤ s.loop_count)
      | none => false
  else false

/-- `ContentState.advance_frame` at clock reading `now`: returns the Python
return value together with the updated state.  `if not duration` is Python
truthiness: both `None` and `0` mean never advance.  The `none` frame case
is the `IndexError` of `current_frame`, unreachable for the queue's
states. -/
def ContentState.advance_frame (s : ContentState) (now : ℚ) : Bool × ContentState :=
  if s.paused then (false, s)
  else
    match s.current_frame? with
    | none => (false, s)
    | some f =>
      match f.duration_ms with
      | none => (false, s)
      | some d =>
        if d = 0 then (false, s)
        else if (d : ℚ) ≤ (now - s.frame_start_time - s.time_paused) * 1000 then
          let idx := s.frame_index + 1
          if s.content.frames.length ≤ idx then
            if s.content.playback.loop then
              (true, { s with
                        frame_index := 0
                        loop_count := s.loop_count + 1
                        frame_start_time := now
                        time_paused := 0 })
            else
              (true, { s with
                        frame_index := s.content.frames.length - 1
                        frame_start_time := now
                        time_paused := 0 })
          else
            (true, { s with
                      frame_index := idx
                      frame_start_time := now
                      time_paused := 0 })
        else (false, s)

/-- `ContentState.pause` at clock reading `now`. -/
def ContentState.pause (s : ContentState) (now : ℚ) : ContentState :=
  if s.paused then s
  else { s with paused := true, paused_at := some now }

/-- `ContentState.resume` at clock reading `now`.  The Python guard is
`if self.paused and self.paused_at:`, so a stored clock reading of exactly
`0.0` is falsy and also skips the resume. -/
def ContentState.resume (s : ContentState) (now : ℚ) : ContentState :=
  match s.paused_at with
  | none => s
  | some t =>
    if s.paused ∧ t ≠ 0 then
      { s with
        time_paused := s.time_paused + (now - t)
        paused := false
        paused_at := none }
    else s

/-- `ContentQueue.MAX_QUEUED_ITEMS`. -/
def MAX_QUEUED_ITEMS : Nat := 50

/-- `ContentQueue.MAX_INTERRUPTED_ITEMS`. -/
def MAX_INTERRUPTED_ITEMS : Nat := 10

/-- `ContentQueue` from `src/flipdot/driver/queue.py` (the reentrant lock
serialises the methods; each method is modelled as one atomic step). -/
structure ContentQueue where
  current : Option ContentState
  queue : List ContentState
  interrupted : List ContentState
deriving DecidableEq, Repr

/-- Priority of a queued state (`state.content.playback.priority`). -/
def ContentState.prio (s : ContentState) : Nat := s.content.playback.priority

/-- The insertion-point loop of `ContentQueue._add_to_queue`: walk the queue
while `priority <= queued.content.playback.priority`, advancing the
insertion index; insert at the first strict drop. -/
def insertByPriority (s : ContentState) : List ContentState → List ContentState
  | [] => [s]
  | t :: rest =>
    if s.prio ≤ t.prio then t :: insertByPriority s rest
    else s :: t :: rest

/-- `ContentQueue._add_to_queue`: insert in priority order, then, if the
queue exceeds `MAX_QUEUED_ITEMS`, drop the tail (`self.queue.pop()`). -/
def ContentQueue.add_to_queue (q : ContentQueue) (s : ContentState) : ContentQueue :=
  let q1 := insertByPriority s q.queue
  let q2 := if MAX_QUEUED_ITEMS < q1.length then q1.dropLast else q1
  { q with queue := q2 }

/-- `ContentQueue.add_content` at clock reading `now`. -/
def ContentQueue.add_content (q : ContentQueue) (now : ℚ) (c : Content) : ContentQueue :=
  let new_state := ContentState.init now c
  let priority := c.playback.priority
  match q.current with
  | none => { q with current := some new_state }
  | some cur =>
    if cur.prio < priority then
      if cur.content.playback.interruptible then
        let intr := q.interrupted ++ [cur.pause now]
        let intr := if MAX_INTERRUPTED_ITEMS < intr.length then intr.drop 1 else intr
        { q with current := some new_state, interrupted := intr }
      else q.add_to_queue new_state
    else q.add_to_queue new_state

/-- `ContentQueue.update` at clock reading `now`: returns the frame to
display (if any) and the updated queue.  `self.interrupted.pop()` takes the
top (last) of the stack; `self.queue.pop(0)` takes the head. -/
def ContentQueue.update (q : ContentQueue) (now : ℚ) : Option Frame × ContentQueue :=
  match q.current with
  | none => (none, q)
  | some cur0 =>
    let cur := (cur0.advance_frame now).2
    if cur.is_complete then
      match q.interrupted.getLast? with
      | some prev =>
        let resumed := prev.resume now
        (resumed.current_frame?,
         { q with current := some resumed, interrupted := q.interrupted.dropLast })
      | none =>
        match q.queue with
        | next :: rest =>
          (next.current_frame?, { q with current := some next, queue := rest })
        | [] => (none, { q with current := none })
    else (cur.current_frame?, { q with current := some cur })

/-- The first-match in-place replacement loops of
`ContentQueue.replace_if_same_id` over `queue` / `interrupted`: replace the
first state with the matching `content_id` by a fresh state, report whether
one was found. -/
def replaceFirstById (now : ℚ) (c : Content) :
    List ContentState → Bool × List ContentState
  | [] => (false, [])
  | s :: rest =>
    if s.content.content_id = c.content_id then
      (true, ContentState.init now c :: rest)
    else
      let r := replaceFirstById now c rest
      (r.1, s :: r.2)

/-- `ContentQueue.replace_if_same_id` at clock reading `now`: check
`current`, then `queue`, then `interrupted`.  On a `current` hit the new
state keeps the old `frame_index` when the new content is long enough; the
fresh state's other fields (including `frame_start_time := now`) come from
`ContentState.__init__`. -/
def ContentQueue.replace_if_same_id (q : ContentQueue) (now : ℚ) (c : Content) :
    Bool × ContentQueue :=
  let inRest : Bool × ContentQueue :=
    let rq := replaceFirstById now c q.queue
    if rq.1 then (true, { q with queue := rq.2 })
    else
      let ri := replaceFirstById now c q.interrupted
      if ri.1 then (true, { q with interrupted := ri.2 })
      else (false, q)
  match q.current with
  | some cur =>
    if cur.content.content_id = c.content_id then
      let ns := ContentState.init now c
      let ns := if cur.frame_index < c.frames.length then
          { ns with frame_index := cur.frame_index } else ns
      (true, { q with current := some ns })
    else inRest
  | none => inRest

/-- Outcome of the `self._serial.write(data)` call inside
`SerialConnection.write` (`src/flipdot/hardware.py`): the device reports a
byte count, or the call raises `OSError`/`SerialException`, or it raises
some other `BaseException`. -/
inductive WriteOutcome where
  | wrote (n : Nat)
  | raisesSerialExc
  | raisesOther
deriving DecidableEq, Repr

/-- `SerialConnection` from `src/flipdot/hardware.py` together with the
serial limits it reads from `config.py` (`SerialConfig`).  `serial = some ()`
means an open handle (`self._serial` non-`None`). -/
structure SerialConnection where
  dev_mode : Bool
  serial : Option Unit
  consecutive_failures : Nat
  last_reconnect_attempt : ℚ
  reconnect_backoff_ms : ℚ
  initial_reconnect_backoff_ms : ℚ
  max_reconnect_backoff_ms : ℚ
  max_consecutive_failures : Nat
deriving DecidableEq, Repr

/-- `SerialConnection._should_attempt_reconnect` at clock reading `now`. -/
def SerialConnection.should_attempt_reconnect (s : SerialConnection) (now : ℚ) : Bool :=
  s.reconnect_backoff_ms ≤ (now - s.last_reconnect_attempt) * 1000

/-- `SerialConnection._try_reconnect` at clock reading `now`; `connectOk`
is whether opening `serial.Serial(...)` succeeds (`_connect`). -/
def SerialConnection.try_reconnect (s : SerialConnection) (now : ℚ) (connectOk : Bool) :
    Bool × SerialConnection :=
  if !s.should_attempt_reconnect now then (false, s)
  else
    let s1 := { s with last_reconnect_attempt := now }
    if connectOk then
      (true, { s1 with
               serial := some ()
               consecutive_failures := 0
               reconnect_backoff_ms := s1.initial_reconnect_backoff_ms })
    else
      (false, { s1 with
                serial := none
                reconnect_backoff_ms :=
                  min (s1.reconnect_backoff_ms * 2) s1.max_reconnect_backoff_ms })

/-- The `try:`-block of `SerialConnection.write`: the actual write attempt
once a connection is (believed to be) present.  A reported byte count that
differs from the request length increments the failure counter and returns
`err` without touching the handle; `OSError`/`SerialException` closes the
handle and clears it; any other exception leaves the handle as is. -/
def SerialConnection.write_attempt (s : SerialConnection) (outcome : WriteOutcome)
    (dataLen : Nat) : Bool × SerialConnection :=
  match s.serial with
  | none => (false, { s with consecutive_failures := s.consecutive_failures + 1 })
  | some _ =>
    match outcome with
    | .wrote n =>
      if n ≠ dataLen then
        (false, { s with consecutive_failures := s.consecutive_failures + 1 })
      else (true, { s with consecutive_failures := 0 })
    | .raisesSerialExc =>
      (false, { s with
                consecutive_failures := s.consecutive_failures + 1
                serial := none })
    | .raisesOther =>
      (false, { s with consecutive_failures := s.consecutive_failures + 1 })

/-- `SerialConnection.write` at clock reading `now`.  In dev mode the bytes
are logged and dropped.  Without a handle, try to reconnect first and fail
(counting the failure) if that does not produce one. -/
def SerialConnection.write (s : SerialConnection) (now : ℚ) (connectOk : Bool)
    (outcome : WriteOutcome) (dataLen : Nat) : Bool × SerialConnection :=
  if s.dev_mode then (true, s)
  else
    match s.serial with
    | some _ => s.write_attempt outcome dataLen
    | none =>
      let r := s.try_reconnect now connectOk
      if !r.1 then
        (false, { r.2 with consecutive_failures := r.2.consecutive_failures + 1 })
      else r.2.write_attempt outcome dataLen

/-- `ClientBackoff` from `src/flipdot/config.py`. -/
structure ClientBackoff where
  initial_backoff_ms : ℚ
  backoff_multiplier : ℚ
  max_backoff_ms : ℚ
deriving DecidableEq, Repr

/-- The `ClientBackoff()` defaults: 1 s initial, doubling, 5 min cap. -/
def defaultClientBackoff : ClientBackoff :=
  { initial_backoff_ms := 1000, backoff_multiplier := 2, max_backoff_ms := 300000 }

/-- `ContentClient._get_effective_poll_interval` from
`src/flipdot/driver/client.py`, as a function of the limits and the two
fields it reads (`poll_interval_ms`, `consecutive_errors`). -/
def get_effective_poll_interval (limits : ClientBackoff) (poll_interval_ms : ℚ)
    (consecutive_errors : Nat) : ℚ :=
  if consecutive_errors = 0 then poll_interval_ms
  else
    let backoff := limits.initial_backoff_ms *
      limits.backoff_multiplier ^ (consecutive_errors - 1)
    let backoff := min backoff limits.max_backoff_ms
    max poll_interval_ms backoff

/-- Length of the flattening of a matrix with uniform row length. -/
theorem flatten_length_uniform (m : List (List Nat)) (W : Nat)
    (hW : ∀ row ∈ m, row.length = W) : m.flatten.length = m.length * W := by
  induction m with
  | nil => simp
  | cons row rest ih =>
    have hrow : row.length = W := hW row (List.mem_cons_self _ _)
    have : ∀ r ∈ rest, r.length = W := fun r hr => hW r (List.mem_cons_of_mem _ hr)
    simp [ih this, hrow, Nat.succ_mul, Nat.add_comm]

/-- Reading the row-major flattening of a uniform-width matrix at index
`r * W + c` (with `c < W`) is reading row `r` at column `c`. -/
theorem flatten_getD (m : List (List Nat)) (W c : Nat)
    (hW : ∀ row ∈ m, row.length = W) (hc : c < W) (r : Nat) :
    m.flatten.getD (r * W + c) 0 = (m.getD r []).getD c 0 := by
  induction m generalizing r with
  | nil => simp [List.getD]
  | cons row rest ih =>
    have hrow : row.length = W := hW row (List.mem_cons_self _ _)
    have hrest : ∀ x ∈ rest, x.length = W := fun x hx => hW x (List.mem_cons_of_mem _ hx)
    cases r with
    | zero =>
      have hlt : 0 * W + c < row.length := by omega
      rw [List.flatten_cons, List.getD_append _ _ _ _ hlt]
      simp
    | succ r =>
      have hge : row.length ≤ (r + 1) * W + c := by
        rw [hrow]; calc W ≤ (r + 1) * W := Nat.le_mul_of_pos_left W (Nat.succ_pos r)
          _ ≤ (r + 1) * W + c := Nat.le_add_right _ _
      rw [List.flatten_cons, List.getD_append_right _ _ _ _ hge]
      have harith : (r + 1) * W + c - row.length = r * W + c := by
        rw [hrow]; ring_nf; omega
      rw [harith, ih hrest r]
      simp

/-- Value of a packed byte: with 0/1 bits, the accumulated byte is the
little-endian weighted sum of the bits. -/
theorem packBitsLSB_eq_sum (c : List Nat) (h01 : ∀ b ∈ c, b ≤ 1) :
    packBitsLSB c = ∑ j ∈ Finset.range c.length, c.getD j 0 * 2 ^ j := by
  induction c with
  | nil => simp [packBitsLSB]
  | cons b bs ih =>
    have hb : b ≤ 1 := h01 b (List.mem_cons_self _ _)
    have hbs : ∀ x ∈ bs, x ≤ 1 := fun x hx => h01 x (List.mem_cons_of_mem _ hx)
    rw [packBitsLSB, ih hbs]
    rw [List.length_cons, Finset.sum_range_succ']
    simp only [List.getD_cons_succ, List.getD_cons_zero, pow_zero, mul_one, pow_succ,
      ← mul_assoc]
    rw [← Finset.sum_mul]
    interval_cases b <;> simp <;> ring

/-- Bit `m` of a packed byte is the m-th listed bit (0 beyond the end), for
0/1 bit lists. -/
theorem packBitsLSB_bit (c : List Nat) (h01 : ∀ b ∈ c, b ≤ 1) (m : Nat) :
    (packBitsLSB c >>> m) &&& 1 = c.getD m 0 := by
  induction c generalizing m with
  | nil => simp [packBitsLSB, List.getD]
  | cons b bs ih =>
    have hb : b ≤ 1 := h01 b (List.mem_cons_self _ _)
    have hbs : ∀ x ∈ bs, x ≤ 1 := fun x hx => h01 x (List.mem_cons_of_mem _ hx)
    rw [packBitsLSB, Nat.shiftRight_eq_div_pow, Nat.and_one_is_mod]
    cases m with
    | zero =>
      simp only [pow_zero, Nat.div_one, List.getD_cons_zero]
      interval_cases b <;> simp <;> omega
    | succ m =>
      have hdiv : ((if b ≠ 0 then 1 else 0) + 2 * packBitsLSB bs) / 2 ^ (m + 1) =
          packBitsLSB bs / 2 ^ m := by
        rw [pow_succ, Nat.mul_comm (2 ^ m) 2, ← Nat.div_div_eq_div_mul]
        congr 1
        interval_cases b <;> simp <;> omega
      rw [hdiv, List.getD_cons_succ, ← Nat.and_one_is_mod, ← Nat.shiftRight_eq_div_pow]
      exact ih hbs m

/-- Shifting a `bitAt` read past the first byte. -/
theorem bitAt_cons_of_ge (a : Nat) (rest : List Nat) (k : Nat) (hk : 8 ≤ k) :
    bitAt (a :: rest) k = bitAt rest (k - 8) := by
  have hdiv : k / 8 = (k - 8) / 8 + 1 := by omega
  have hmod : k % 8 = (k - 8) % 8 := by omega
  unfold bitAt
  by_cases hlt : (k - 8) / 8 < rest.length
  · rw [if_pos hlt, if_pos (show k / 8 < (a :: rest).length by
      simp only [List.length_cons]; omega)]
    rw [hdiv, hmod, List.getD_cons_succ]
  · rw [if_neg hlt, if_neg (show ¬ k / 8 < (a :: rest).length by
      simp only [List.length_cons]; omega)]

/-- Bit `k` of the packed byte stream is the k-th bit of the input, for 0/1
bit lists and in-range `k`. -/
theorem pack_bits_bitAt (k : Nat) : ∀ (L : List Nat), (∀ b ∈ L, b ≤ 1) →
    k < L.length → bitAt (pack_bits_little_endian L) k = L.getD k 0 := by
  induction k using Nat.strong_induction_on with
  | _ k ih =>
    intro L h01 hk
    have hne : L ≠ [] := by
      intro h
      rw [h] at hk
      simp at hk
    rw [pack_bits_chunk L hne]
    by_cases h8 : k < 8
    · have hdiv : k / 8 = 0 := by omega
      have hmod : k % 8 = k := by omega
      unfold bitAt
      rw [hdiv, hmod]
      simp only [List.length_cons, Nat.zero_lt_succ, if_pos, List.getD_cons_zero]
      have htake : ∀ b ∈ L.take 8, b ≤ 1 := fun b hb => h01 b (List.mem_of_mem_take hb)
      rw [packBitsLSB_bit (L.take 8) htake k]
      rw [List.getD_eq_getElem?_getD, List.getD_eq_getElem?_getD, List.getElem?_take]
      simp [h8]
    · push_neg at h8
      rw [bitAt_cons_of_ge _ _ k h8]
      have hlen : k - 8 < (L.drop 8).length := by
        rw [List.length_drop]; omega
      have hdrop : ∀ b ∈ L.drop 8, b ≤ 1 := fun b hb => h01 b (List.mem_of_mem_drop hb)
      rw [ih (k - 8) (by omega) (L.drop 8) hdrop hlen]
      rw [List.getD_eq_getElem?_getD, List.getD_eq_getElem?_getD, List.getElem?_drop]
      congr 2
      omega

/-- C8: packing a 0/1 matrix row-major with `pack_bits_little_endian` and
unpacking the bytes with `Frame.to_bit_array`'s row-major LSB-first rule
yields the matrix back; the padding bits of the final byte (positions
`≥ h * w`) are never read, so they do not affect the result. -/
theorem C8_pack_unpack_roundtrip (M : List (List Nat)) (w h : Nat) (d : Option Nat)
    (hw : 0 < w) (hh : 0 < h) (hlen : M.length = h)
    (hrow : ∀ row ∈ M, row.length = w)
    (hbits : ∀ row ∈ M, ∀ b ∈ row, b = 0 ∨ b = 1) :
    Frame.to_bit_array
      { data := pack_bits_little_endian M.flatten, width := w, height := h,
        duration_ms := d } = M := by
  have h01 : ∀ b ∈ M.flatten, b ≤ 1 := by
    intro b hb
    obtain ⟨row, hrowm, hbrow⟩ := List.mem_flatten.mp hb
    rcases hbits row hrowm b hbrow with h | h <;> omega
  have hflat : M.flatten.length = h * w := by
    rw [flatten_length_uniform M w hrow, hlen]
  unfold Frame.to_bit_array
  simp only
  apply List.ext_getElem
  · simp [hlen]
  · intro i hi1 hi2
    simp only [List.length_map, List.length_range] at hi1
    rw [List.getElem_map, List.getElem_range]
    apply List.ext_getElem
    · simp [hrow M[i] (List.getElem_mem hi2)]
    · intro j hj1 hj2
      simp only [List.length_map, List.length_range] at hj1
      rw [List.getElem_map, List.getElem_range]
      have hkrange : i * w + j < M.flatten.length := by
        rw [hflat]
        calc i * w + j < i * w + w := by omega
          _ = (i + 1) * w := by ring
          _ ≤ h * w := Nat.mul_le_mul_right w (by omega)
      rw [pack_bits_bitAt (i * w + j) M.flatten h01 hkrange]
      rw [flatten_getD M w j hrow hj1 i]
      rw [List.getD_eq_getElem _ _ (by omega : i < M.length)]
      rw [List.getD_eq_getElem _ _ (by rw [hrow M[i] (List.getElem_mem hi2)]; omega)]

/-- C10: `Frame.to_bit_array` is total on every frame: it returns exactly
`height` rows of exactly `width` cells, every cell is 0 or 1, and any bit
position whose byte index lies beyond the decoded data reads as 0 (the
`else row.append(0)` branch). -/
theorem C10_to_bit_array_total (f : Frame) :
    f.to_bit_array.length = f.height
    ∧ (∀ row ∈ f.to_bit_array, row.length = f.width)
    ∧ (∀ row ∈ f.to_bit_array, ∀ b ∈ row, b = 0 ∨ b = 1)
    ∧ (∀ i j, i < f.height → j < f.width → f.data.length ≤ (i * f.width + j) / 8 →
        (f.to_bit_array.getD i []).getD j 0 = 0) := by
  refine ⟨by simp [Frame.to_bit_array], ?_, ?_, ?_⟩
  · intro row hrow
    unfold Frame.to_bit_array at hrow
    obtain ⟨i, _, rfl⟩ := List.mem_map.mp hrow
    simp
  · intro row hrow b hb
    unfold Frame.to_bit_array at hrow
    obtain ⟨i, _, rfl⟩ := List.mem_map.mp hrow
    obtain ⟨j, _, rfl⟩ := List.mem_map.mp hb
    unfold bitAt
    split
    · rw [Nat.and_one_is_mod]
      omega
    · left; rfl
  · intro i j hi hj hdata
    have hrowi : f.to_bit_array.getD i [] =
        (List.range f.width).map fun j => bitAt f.data (i * f.width + j) := by
      unfold Frame.to_bit_array
      rw [List.getD_eq_getElem _ _ (by simpa using hi), List.getElem_map,
        List.getElem_range]
    have hcell : ((List.range f.width).map
        fun j => bitAt f.data (i * f.width + j)).getD j 0 =
        bitAt f.data (i * f.width + j) := by
      rw [List.getD_eq_getElem _ _ (by simpa using hj), List.getElem_map,
        List.getElem_range]
    rw [hrowi, hcell]
    unfold bitAt
    rw [if_neg (by omega)]

/-- A 0/1-valued list reads 0 or 1 at every position (0 beyond the end). -/
theorem getD_le_one (l : List Nat) (h01 : ∀ b ∈ l, b = 0 ∨ b = 1) (n : Nat) :
    l.getD n 0 ≤ 1 := by
  by_cases hn : n < l.length
  · rw [List.getD_eq_getElem _ _ hn]
    rcases h01 _ (List.getElem_mem hn) with h | h <;> omega
  · rw [List.getD_eq_default _ _ (by omega)]
    omega

/-- The per-column packing loop of `fetch_serial_command`, restated as the
weighted sum of the column's pixels, top pixel at the least significant
bit. -/
theorem packColumn_eq_sum (content : List Nat) (W H col : Nat)
    (h01 : ∀ b ∈ content, b = 0 ∨ b = 1) :
    packBitsLSB ((List.range H).map fun row => content.getD (row * W + col) 0) =
      ∑ r ∈ Finset.range H, content.getD (r * W + col) 0 * 2 ^ r := by
  rw [packBitsLSB_eq_sum]
  · rw [List.length_map, List.length_range]
    apply Finset.sum_congr rfl
    intro r hr
    have hrH : r < H := Finset.mem_range.mp hr
    congr 1
    rw [List.getD_eq_getElem _ _ (by simpa using hrH), List.getElem_map,
      List.getElem_range]
  · intro b hb
    obtain ⟨r, _, rfl⟩ := List.mem_map.mp hb
    exact getD_le_one content h01 _

/-- C7's description of a per-module command, written from the spec's
words: start marker `0x80 0x83`, the module address, then byte `j` for
column `j` holding the module's `H` pixels of that column top→bottom with
the top pixel in the least significant bit, then `0x8F`.  `cell M r c` is
pixel `(r, c)` of the full panel matrix. -/
def cell (M : List (List Nat)) (r c : Nat) : Nat := (M.getD r []).getD c 0

/-- The spec-side command for the module at grid position `(ri, ci)` with
address `addr`, for a panel with `W × H` pixel modules. -/
def moduleCommandSpec (matrix : List (List Nat)) (W H addr ri ci : Nat) : List Nat :=
  0x80 :: 0x83 :: addr :: ((List.range W).map fun j =>
    ∑ r ∈ Finset.range H, cell matrix (ri * H + r) (ci * W + j) * 2 ^ r) ++ [0x8F]

/-- Reading the flattened sub-matrix `[r0, r0+H) × [c0, c0+W)` of a matrix
at flat position `r * W + j` is reading the matrix cell `(r0+r, c0+j)`. -/
theorem subMatrix_cell (matrix : List (List Nat)) (r0 H c0 W r j : Nat)
    (hr : r < H) (hj : j < W) (hrows : r0 + H ≤ matrix.length)
    (hcols : ∀ row ∈ matrix, c0 + W ≤ row.length) :
    (subMatrix matrix r0 H c0 W).flatten.getD (r * W + j) 0 =
      cell matrix (r0 + r) (c0 + j) := by
  have huniform : ∀ row ∈ subMatrix matrix r0 H c0 W, row.length = W := by
    intro row hrow
    obtain ⟨base, hbase, rfl⟩ := List.mem_map.mp hrow
    have hbm : base ∈ matrix :=
      List.mem_of_mem_drop (List.mem_of_mem_take hbase)
    have := hcols base hbm
    simp only [List.length_take, List.length_drop]
    omega
  rw [flatten_getD _ W j huniform hj r]
  have hin : r0 + r < matrix.length := by omega
  have hrowval : (subMatrix matrix r0 H c0 W).getD r [] =
      ((matrix.getD (r0 + r) []).drop c0).take W := by
    unfold subMatrix
    rw [List.getD_eq_getElem?_getD, List.getElem?_map, List.getElem?_take,
      if_pos hr, List.getElem?_drop, List.getElem?_eq_getElem hin]
    rw [List.getD_eq_getElem _ _ hin]
    rfl
  rw [hrowval]
  have hrl : c0 + W ≤ (matrix.getD (r0 + r) []).length := by
    rw [List.getD_eq_getElem _ _ hin]
    exact hcols _ (List.getElem_mem hin)
  unfold cell
  rw [List.getD_eq_getElem?_getD (((matrix.getD (r0 + r) []).drop c0).take W),
    List.getElem?_take, if_pos hj, List.getElem?_drop,
    ← List.getD_eq_getElem?_getD]

/-- The command bytes of a module with 0/1 content, with the payload
restated as per-column weighted sums. -/
theorem fetch_serial_command_bytes (m : FlippyModule) (flush : Bool)
    (h01 : ∀ b ∈ m.content, b = 0 ∨ b = 1) :
    m.fetch_serial_command flush =
      (if flush then [0x80, 0x83] else [0x80, 0x84]) ++ m.address ::
        ((List.range m.width).map fun j =>
          ∑ r ∈ Finset.range m.height, m.content.getD (r * m.width + j) 0 * 2 ^ r)
        ++ [0x8F] := by
  have hpay : ((List.range m.width).map fun col =>
      packBitsLSB ((List.range m.height).map fun row =>
        m.content.getD (row * m.width + col) 0)) =
      (List.range m.width).map fun j =>
        ∑ r ∈ Finset.range m.height, m.content.getD (r * m.width + j) 0 * 2 ^ r := by
    apply List.map_congr_left
    intro col _
    exact packColumn_eq_sum m.content m.width m.height col h01
  unfold FlippyModule.fetch_serial_command
  simp only [START_BYTES_FLUSH, START_BYTES_BUFFER, END_BYTES]
  rw [hpay]

/-- The command generated for the module at grid slot `(ri, ci)` equals the
spec-side `moduleCommandSpec`. -/
theorem module_fetch_eq_spec (matrix : List (List Nat)) (W H addr ri ci : Nat)
    (hrows : ri * H + H ≤ matrix.length)
    (hcols : ∀ row ∈ matrix, ci * W + W ≤ row.length)
    (hbits : ∀ row ∈ matrix, ∀ b ∈ row, b = 0 ∨ b = 1) :
    FlippyModule.fetch_serial_command
      { width := W, height := H, address := addr,
        content := (subMatrix matrix (ri * H) H (ci * W) W).flatten } true =
      moduleCommandSpec matrix W H addr ri ci := by
  have hsub01 : ∀ b ∈ (subMatrix matrix (ri * H) H (ci * W) W).flatten,
      b = 0 ∨ b = 1 := by
    intro b hb
    obtain ⟨row, hrow, hbrow⟩ := List.mem_flatten.mp hb
    obtain ⟨base, hbase, rfl⟩ := List.mem_map.mp hrow
    have hbm : base ∈ matrix := List.mem_of_mem_drop (List.mem_of_mem_take hbase)
    exact hbits base hbm b (List.mem_of_mem_drop (List.mem_of_mem_take hbrow))
  rw [fetch_serial_command_bytes _ true hsub01]
  have hfg : ((List.range W).map fun j =>
      ∑ r ∈ Finset.range H,
        (subMatrix matrix (ri * H) H (ci * W) W).flatten.getD (r * W + j) 0 * 2 ^ r) =
      (List.range W).map fun j =>
        ∑ r ∈ Finset.range H, cell matrix (ri * H + r) (ci * W + j) * 2 ^ r := by
    apply List.map_congr_left
    intro j hj
    rw [List.mem_range] at hj
    apply Finset.sum_congr rfl
    intro r hr
    rw [Finset.mem_range] at hr
    rw [subMatrix_cell matrix (ri * H) H (ci * W) W r j hr hj hrows hcols]
  show ([0x80, 0x83] : List Nat) ++ addr :: _ ++ [0x8F] = _
  rw [hfg]
  rfl

/-- C7: each module command is the start marker (`0x80 0x83` flushing,
`0x80 0x84` buffered), the address byte, `W` payload bytes with byte `j`
holding column `j`'s `H` pixels top→bottom (top pixel at the least
significant bit), then `0x8F`; and `Panel.set_content` on a validated
`total_height × total_width` 0/1 matrix is exactly the concatenation of
these per-module commands in row-major grid order. -/
theorem C7_panel_serial_commands (p : Panel) (matrix : List (List Nat))
    (hm : matrix.length = p.total_height)
    (hw : ∀ row ∈ matrix, row.length = p.total_width)
    (hbits : ∀ row ∈ matrix, ∀ b ∈ row, b = 0 ∨ b = 1) :
    (∀ (m : FlippyModule) (flush : Bool), (∀ b ∈ m.content, b = 0 ∨ b = 1) →
      m.fetch_serial_command flush =
        (if flush then [0x80, 0x83] else [0x80, 0x84]) ++ m.address ::
          ((List.range m.width).map fun j =>
            ∑ r ∈ Finset.range m.height, m.content.getD (r * m.width + j) 0 * 2 ^ r)
          ++ [0x8F])
    ∧ p.set_content matrix = some (((List.range p.n_rows).map fun ri =>
        ((List.range p.n_cols).map fun ci =>
          moduleCommandSpec matrix p.module_width p.module_height
            ((p.layout.getD ri []).getD ci 0) ri ci).flatten).flatten) := by
  constructor
  · intro m flush h01
    exact fetch_serial_command_bytes m flush h01
  · unfold Panel.set_content
    rw [if_pos ⟨hm, hw⟩]
    refine congrArg some (congrArg List.flatten ?_)
    apply List.map_congr_left
    intro ri hri
    rw [List.mem_range] at hri
    refine congrArg List.flatten ?_
    apply List.map_congr_left
    intro ci hci
    rw [List.mem_range] at hci
    apply module_fetch_eq_spec
    · rw [hm]
      unfold Panel.total_height
      calc ri * p.module_height + p.module_height = (ri + 1) * p.module_height := by
            ring
        _ ≤ p.n_rows * p.module_height := Nat.mul_le_mul_right _ (by omega)
        _ = p.module_height * p.n_rows := Nat.mul_comm _ _
    · intro row hrow
      rw [hw row hrow]
      unfold Panel.total_width
      calc ci * p.module_width + p.module_width = (ci + 1) * p.module_width := by
            ring
        _ ≤ p.n_cols * p.module_width := Nat.mul_le_mul_right _ (by omega)
        _ = p.module_width * p.n_cols := Nat.mul_comm _ _
    · exact hbits

/-- C9: with the default limits, the effective poll interval is
`poll_interval_ms` when there are no consecutive errors and otherwise
`max(poll_interval_ms, min(max_backoff_ms, initial · multiplier^(n-1)))`;
after 5 consecutive errors the capped backoff term is 16000 ms; the
effective interval never drops below `poll_interval_ms` and is
non-decreasing in the error count (in particular up to the cap). -/
theorem C9_effective_poll_interval (poll : ℚ) :
    get_effective_poll_interval defaultClientBackoff poll 0 = poll
    ∧ (∀ n : Nat, n ≠ 0 → get_effective_poll_interval defaultClientBackoff poll n =
        max poll (min 300000 (1000 * 2 ^ (n - 1))))
    ∧ min (300000 : ℚ) (1000 * 2 ^ (5 - 1)) = 16000
    ∧ (∀ n : Nat, poll ≤ get_effective_poll_interval defaultClientBackoff poll n)
    ∧ (∀ n m : Nat, n ≤ m →
        get_effective_poll_interval defaultClientBackoff poll n ≤
          get_effective_poll_interval defaultClientBackoff poll m) := by
  have hval : ∀ n : Nat, n ≠ 0 → get_effective_poll_interval defaultClientBackoff poll n =
      max poll (min 300000 (1000 * 2 ^ (n - 1))) := by
    intro n hn
    unfold get_effective_poll_interval defaultClientBackoff
    rw [if_neg hn]
    simp only
    rw [min_comm]
  have hge : ∀ n : Nat, poll ≤ get_effective_poll_interval defaultClientBackoff poll n := by
    intro n
    by_cases hn : n = 0
    · subst hn
      unfold get_effective_poll_interval
      rw [if_pos rfl]
    · rw [hval n hn]
      exact le_max_left _ _
  refine ⟨rfl, hval, by norm_num, hge, ?_⟩
  intro n m hnm
  by_cases hn : n = 0
  · subst hn
    calc get_effective_poll_interval defaultClientBackoff poll 0 = poll := rfl
      _ ≤ _ := hge m
  · have hm : m ≠ 0 := by omega
    rw [hval n hn, hval m hm]
    apply max_le_max le_rfl
    apply min_le_min le_rfl
    apply mul_le_mul_of_nonneg_left _ (by norm_num : (0:ℚ) ≤ 1000)
    exact pow_le_pow_right (by norm_num : (1:ℚ) ≤ 2) (by omega)

/-- Witness for C9 at concrete inputs: with `poll_interval_ms = 30000`, the
effective interval after 2 errors is at most the one after 3 errors. -/
theorem C9_effective_poll_interval_witness :
    get_effective_poll_interval defaultClientBackoff 30000 2 ≤
      get_effective_poll_interval defaultClientBackoff 30000 3 :=
  (C9_effective_poll_interval 30000).2.2.2.2 2 3 (by decide)

attribute [ext] ContentState ContentQueue SerialConnection

/-- Any state reached from a complete, non-looping state by `advance_frame`
is still complete: completion never consults the current frame's
duration. -/
theorem advance_frame_preserves_complete (cur : ContentState) (now : ℚ)
    (hcomp : cur.is_complete = true)
    (hloop : cur.content.playback.loop = false) :
    ((cur.advance_frame now).2).is_complete = true := by
  have hfacts : cur.paused = false ∧
      cur.content.frames.length - 1 ≤ cur.frame_index := by
    unfold ContentState.is_complete at hcomp
    by_cases hp : cur.paused
    · rw [if_pos hp] at hcomp
      exact absurd hcomp (by simp)
    · rw [if_neg hp] at hcomp
      by_cases hlen : cur.content.frames.length - 1 ≤ cur.frame_index
      · exact ⟨by simpa using hp, hlen⟩
      · rw [if_neg hlen] at hcomp
        exact absurd hcomp (by simp)
  unfold ContentState.advance_frame
  simp only [hfacts.1, Bool.false_eq_true, if_false]
  split
  · exact hcomp
  · split
    · exact hcomp
    · split
      · exact hcomp
      · split
        · split
          · rw [hloop]
            simp only [Bool.false_eq_true, if_false]
            unfold ContentState.is_complete
            simp [hfacts.1, hloop]
          · exfalso
            have := hfacts.2
            omega
        · exact hcomp

/-- C1 (amended): when the current frame's `duration_ms` is absent or zero
and the current state is not complete, `update()` changes nothing and keeps
returning that frame; but completion never consults the current frame's
duration: a current content that is on its last frame with `loop = false`
is removed by `update()` immediately — even when that frame's
`duration_ms` is absent or zero — and with nothing else queued the display
goes back to `none`. -/
theorem C1_update_duration_and_completion (now : ℚ) (q : ContentQueue)
    (cur : ContentState) (hcur : q.current = some cur) :
    (∀ fr : Frame, cur.paused = false → cur.current_frame? = some fr →
      (fr.duration_ms = none ∨ fr.duration_ms = some 0) →
      cur.is_complete = false → q.update now = (some fr, q))
    ∧ (cur.is_complete = true → cur.content.playback.loop = false →
        q.interrupted = [] → q.queue = [] →
        q.update now = (none, { q with current := none })) := by
  constructor
  · intro fr hp hf hd hnc
    have hadv : cur.advance_frame now = (false, cur) := by
      unfold ContentState.advance_frame
      simp only [hp, Bool.false_eq_true, if_false, hf]
      rcases hd with h | h <;> simp [h]
    unfold ContentQueue.update
    rw [hcur]
    simp only [hadv, hnc, Bool.false_eq_true, if_false]
    rw [hf]
    have : { q with current := some cur } = q := by
      cases q
      simp_all
    rw [this]
  · intro hcomp hloop hint hque
    have hcomp2 := advance_frame_preserves_complete cur now hcomp hloop
    unfold ContentQueue.update
    rw [hcur]
    simp only [hcomp2, if_true, hint, hque, List.getLast?_nil]

/-- C1 counterexample: a single-frame, non-looping content whose only frame
has `duration_ms = None` is removed by the very first `update()` call — the
call returns `none` and clears `current` — rather than being returned on
every call as the claim states. -/
theorem C1_counterexample :
    (ContentQueue.update
        ⟨some (ContentState.init 0 ⟨"a", [⟨[], 1, 1, none⟩], ⟨false, none, 0, true⟩⟩),
         [], []⟩ 7).1 = none
    ∧ (ContentQueue.update
        ⟨some (ContentState.init 0 ⟨"a", [⟨[], 1, 1, none⟩], ⟨false, none, 0, true⟩⟩),
         [], []⟩ 7).2.current = none
    ∧ (ContentQueue.update
        ⟨some (ContentState.init 0 ⟨"a", [⟨[], 1, 1, none⟩], ⟨false, none, 0, true⟩⟩),
         [], []⟩ 7).1 ≠ some ⟨[], 1, 1, none⟩ := by
  refine ⟨rfl, rfl, by decide⟩

/-- Witness for C1 (amended) at a concrete input: a duration-less frame
that is not the last frame of a non-looping content is returned unchanged
by `update()`. -/
theorem C1_update_duration_and_completion_witness :
    ContentQueue.update
      ⟨some (ContentState.init 0
        ⟨"b", [⟨[], 1, 1, none⟩, ⟨[], 1, 1, some 100⟩], ⟨false, none, 0, true⟩⟩),
       [], []⟩ 3 =
      (some ⟨[], 1, 1, none⟩,
       ⟨some (ContentState.init 0
         ⟨"b", [⟨[], 1, 1, none⟩, ⟨[], 1, 1, some 100⟩], ⟨false, none, 0, true⟩⟩),
        [], []⟩) :=
  (C1_update_duration_and_completion 3
    ⟨some (ContentState.init 0
      ⟨"b", [⟨[], 1, 1, none⟩, ⟨[], 1, 1, some 100⟩], ⟨false, none, 0, true⟩⟩),
     [], []⟩
    (ContentState.init 0
      ⟨"b", [⟨[], 1, 1, none⟩, ⟨[], 1, 1, some 100⟩], ⟨false, none, 0, true⟩⟩)
    rfl).1 ⟨[], 1, 1, none⟩ rfl rfl (Or.inl rfl) (by decide)

/-- The first-match replacement loop reports a hit exactly when some state
in the list carries the content id. -/
theorem replaceFirstById_found_iff (now : ℚ) (c : Content) (l : List ContentState) :
    (replaceFirstById now c l).1 = true ↔
      ∃ s ∈ l, s.content.content_id = c.content_id := by
  induction l with
  | nil => simp [replaceFirstById]
  | cons s rest ih =>
    unfold replaceFirstById
    by_cases hid : s.content.content_id = c.content_id
    · simp [hid]
    · simp only [hid, if_false, ih]
      constructor
      · rintro ⟨t, ht, hmatch⟩
        exact ⟨t, List.mem_cons_of_mem _ ht, hmatch⟩
      · rintro ⟨t, ht, hmatch⟩
        rcases List.mem_cons.mp ht with rfl | ht
        · exact absurd hmatch hid
        · exact ⟨t, ht, hmatch⟩

/-- When no state matches, the replacement loop leaves the list as it
was. -/
theorem replaceFirstById_not_found (now : ℚ) (c : Content) (l : List ContentState)
    (h : (replaceFirstById now c l).1 = false) :
    (replaceFirstById now c l).2 = l := by
  induction l with
  | nil => rfl
  | cons s rest ih =>
    unfold replaceFirstById at h ⊢
    by_cases hid : s.content.content_id = c.content_id
    · rw [if_pos hid] at h
      exact absurd h (by simp)
    · rw [if_neg hid] at h ⊢
      simp only at h ⊢
      rw [ih h]

/-- `replace_if_same_id` reports a hit exactly when some held state matches
the incoming `content_id`. -/
theorem replace_found_iff (q : ContentQueue) (now : ℚ) (c : Content) :
    (q.replace_if_same_id now c).1 = true ↔
      ((∃ cur, q.current = some cur ∧ cur.content.content_id = c.content_id)
       ∨ (∃ s ∈ q.queue, s.content.content_id = c.content_id)
       ∨ (∃ s ∈ q.interrupted, s.content.content_id = c.content_id)) := by
  unfold ContentQueue.replace_if_same_id
  rcases hc : q.current with _ | cur
  · simp only [replaceFirstById_found_iff]
    by_cases hq : ∃ s ∈ q.queue, s.content.content_id = c.content_id
    · simp [hq]
    · by_cases hi : ∃ s ∈ q.interrupted, s.content.content_id = c.content_id
      · simp [hq, hi]
      · simp [hq, hi]
  · by_cases hid : cur.content.content_id = c.content_id
    · simp only [replaceFirstById_found_iff, if_pos hid]
      simp [hid]
    · simp only [replaceFirstById_found_iff, if_neg hid]
      by_cases hq : ∃ s ∈ q.queue, s.content.content_id = c.content_id
      · simp [hq]
      · by_cases hi : ∃ s ∈ q.interrupted, s.content.content_id = c.content_id
        · simp [hq, hi]
        · simp [hq, hi, hid]

/-- When `replace_if_same_id` reports no hit, the queue is unchanged. -/
theorem replace_not_found_unchanged (q : ContentQueue) (now : ℚ) (c : Content)
    (h : (q.replace_if_same_id now c).1 = false) :
    (q.replace_if_same_id now c).2 = q := by
  have hnone : ¬ ((∃ cur, q.current = some cur ∧ cur.content.content_id = c.content_id)
      ∨ (∃ s ∈ q.queue, s.content.content_id = c.content_id)
      ∨ (∃ s ∈ q.interrupted, s.content.content_id = c.content_id)) := by
    intro hx
    rw [(replace_found_iff q now c).mpr hx] at h
    exact absurd h (by simp)
  push_neg at hnone
  obtain ⟨hcur, hque, hint⟩ := hnone
  unfold ContentQueue.replace_if_same_id
  rcases hc : q.current with _ | cur
  · simp only [replaceFirstById_found_iff]
    rw [if_neg (by simpa using hque), if_neg (by simpa using hint)]
  · simp only [replaceFirstById_found_iff]
    rw [if_neg (hcur cur hc), if_neg (by simpa using hque),
      if_neg (by simpa using hint)]

/-- A hit on `current` (with enough frames in the replacement) yields a
fresh state of the new content that keeps only the old `frame_index`; in
particular its `frame_start_time` is the clock reading of the call, and the
queue and interrupted stack are untouched. -/
theorem replace_current_hit (q : ContentQueue) (now : ℚ) (c : Content)
    (cur : ContentState) (hc : q.current = some cur)
    (hid : cur.content.content_id = c.content_id)
    (hframes : cur.frame_index < c.frames.length) :
    (q.replace_if_same_id now c).2 =
      { q with current := some { ContentState.init now c with frame_index := cur.frame_index } } := by
  unfold ContentQueue.replace_if_same_id
  rw [hc]
  simp only [if_pos hid, if_pos hframes]

/-- When `current` does not match, `replace_if_same_id` leaves `current`
untouched. -/
theorem replace_current_miss (q : ContentQueue) (now : ℚ) (c : Content)
    (cur : ContentState) (hc : q.current = some cur)
    (hid : cur.content.content_id ≠ c.content_id) :
    (q.replace_if_same_id now c).2.current = q.current := by
  unfold ContentQueue.replace_if_same_id
  rw [hc]
  simp only [replaceFirstById_found_iff, if_neg hid]
  by_cases hq : ∃ s ∈ q.queue, s.content.content_id = c.content_id
  · simp [hq]
  · by_cases hi : ∃ s ∈ q.interrupted, s.content.content_id = c.content_id
    · simp [hq, hi]
    · simp [hq, hi, hc]

/-- A hit in the queue leaves the interrupted stack untouched (the
interrupted stack is only searched after the queue). -/
theorem replace_queue_hit_keeps_interrupted (q : ContentQueue) (now : ℚ)
    (c : Content) (hex : ∃ s ∈ q.queue, s.content.content_id = c.content_id) :
    (q.replace_if_same_id now c).2.interrupted = q.interrupted := by
  unfold ContentQueue.replace_if_same_id
  rcases hc : q.current with _ | cur
  · simp only [replaceFirstById_found_iff]
    rw [if_pos hex]
  · by_cases hid : cur.content.content_id = c.content_id
    · simp only [if_pos hid]
    · simp only [replaceFirstById_found_iff, if_neg hid]
      rw [if_pos hex]

/-- C2 (amended): `replace_if_same_id` searches `current`, then the queue,
then the interrupted stack, replaces the first state whose `content_id`
equals the incoming one, and returns `true` exactly when such a state exists
(`false`, with nothing modified, otherwise); when the hit is `current` and
the new content has at least `frame_index + 1` frames, the existing
`frame_index` is preserved — but the frame timing is not: the replacement is
a fresh state whose `frame_start_time` is the clock reading of the call, not
the old `frame_start_time`. -/
theorem C2_replace_if_same_id (q : ContentQueue) (now : ℚ) (c : Content) :
    ((q.replace_if_same_id now c).1 = true ↔
      ((∃ cur, q.current = some cur ∧ cur.content.content_id = c.content_id)
       ∨ (∃ s ∈ q.queue, s.content.content_id = c.content_id)
       ∨ (∃ s ∈ q.interrupted, s.content.content_id = c.content_id)))
    ∧ ((q.replace_if_same_id now c).1 = false → (q.replace_if_same_id now c).2 = q)
    ∧ (∀ cur, q.current = some cur → cur.content.content_id = c.content_id →
        cur.frame_index < c.frames.length →
        (q.replace_if_same_id now c).2 =
          { q with current := some { ContentState.init now c with frame_index := cur.frame_index } })
    ∧ (∀ cur, q.current = some cur → cur.content.content_id ≠ c.content_id →
        (q.replace_if_same_id now c).2.current = q.current)
    ∧ ((∃ s ∈ q.queue, s.content.content_id = c.content_id) →
        (q.replace_if_same_id now c).2.interrupted = q.interrupted) :=
  ⟨replace_found_iff q now c,
   replace_not_found_unchanged q now c,
   fun cur hc hid hframes => replace_current_hit q now c cur hc hid hframes,
   fun cur hc hid => replace_current_miss q now c cur hc hid,
   fun hex => replace_queue_hit_keeps_interrupted q now c hex⟩

/-- C2 counterexample: replacing the current content (same id, enough
frames) at clock reading 5 yields a state whose `frame_start_time` is 5,
not the old state's `frame_start_time` 0 — the frame timing is not
preserved. -/
theorem C2_counterexample :
    ((ContentQueue.replace_if_same_id
        ⟨some (ContentState.init 0 ⟨"a", [⟨[], 1, 1, none⟩], ⟨false, none, 0, true⟩⟩),
         [], []⟩ 5 ⟨"a", [⟨[], 1, 1, none⟩], ⟨false, none, 0, true⟩⟩).1 = true)
    ∧ ((ContentQueue.replace_if_same_id
        ⟨some (ContentState.init 0 ⟨"a", [⟨[], 1, 1, none⟩], ⟨false, none, 0, true⟩⟩),
         [], []⟩ 5 ⟨"a", [⟨[], 1, 1, none⟩], ⟨false, none, 0, true⟩⟩).2.current.map
          ContentState.frame_start_time = some 5)
    ∧ some (5 : ℚ) ≠ some (0 : ℚ) := by
  refine ⟨rfl, by decide, by decide⟩

/-- Witness for C2 (amended) at a concrete input: a current hit returns the
fresh state with the old frame index and `frame_start_time = 5`. -/
theorem C2_replace_if_same_id_witness :
    (ContentQueue.replace_if_same_id
        ⟨some (ContentState.init 0 ⟨"a", [⟨[], 1, 1, none⟩], ⟨false, none, 0, true⟩⟩),
         [], []⟩ 5 ⟨"a", [⟨[], 1, 1, none⟩], ⟨false, none, 0, true⟩⟩).2 =
      ⟨some { ContentState.init 5 ⟨"a", [⟨[], 1, 1, none⟩], ⟨false, none, 0, true⟩⟩ with
          frame_index := (ContentState.init 0
            ⟨"a", [⟨[], 1, 1, none⟩], ⟨false, none, 0, true⟩⟩).frame_index },
       [], []⟩ :=
  (C2_replace_if_same_id
    ⟨some (ContentState.init 0 ⟨"a", [⟨[], 1, 1, none⟩], ⟨false, none, 0, true⟩⟩),
     [], []⟩ 5 ⟨"a", [⟨[], 1, 1, none⟩], ⟨false, none, 0, true⟩⟩).2.2.1
    (ContentState.init 0 ⟨"a", [⟨[], 1, 1, none⟩], ⟨false, none, 0, true⟩⟩)
    rfl rfl (by decide)

/-- Witness for C7 at a concrete input: a 2-row, 1-column panel of 2×1
modules with addresses 1 and 2. -/
theorem C7_panel_serial_commands_witness :
    Panel.set_content ⟨[[1], [2]], 2, 1⟩ [[1, 0], [0, 1]] =
      some (((List.range (Panel.n_rows ⟨[[1], [2]], 2, 1⟩)).map fun ri =>
        ((List.range (Panel.n_cols ⟨[[1], [2]], 2, 1⟩)).map fun ci =>
          moduleCommandSpec [[1, 0], [0, 1]] 2 1
            ((([[1], [2]] : List (List Nat)).getD ri []).getD ci 0) ri ci).flatten).flatten) :=
  (C7_panel_serial_commands ⟨[[1], [2]], 2, 1⟩ [[1, 0], [0, 1]]
    (by decide) (by decide) (by decide)).2

/-- Witness for C8 at a concrete input: the 2×2 identity-like matrix
round-trips through pack and unpack. -/
theorem C8_pack_unpack_roundtrip_witness :
    Frame.to_bit_array
      { data := pack_bits_little_endian ([[1, 0], [0, 1]] : List (List Nat)).flatten,
        width := 2, height := 2, duration_ms := none } = [[1, 0], [0, 1]] :=
  C8_pack_unpack_roundtrip [[1, 0], [0, 1]] 2 2 none (by decide) (by decide)
    (by decide) (by decide) (by decide)

/-- Witness for C10 at a concrete input: a frame whose data holds fewer
bits than `width · height` still unpacks to `height` full rows, and a
position past the data reads 0. -/
theorem C10_to_bit_array_total_witness :
    (Frame.to_bit_array ⟨[5], 3, 4, none⟩).length = 4
    ∧ ((Frame.to_bit_array ⟨[5], 3, 4, none⟩).getD 3 []).getD 2 0 = 0 :=
  ⟨(C10_to_bit_array_total ⟨[5], 3, 4, none⟩).1,
   (C10_to_bit_array_total ⟨[5], 3, 4, none⟩).2.2.2 3 2 (by decide) (by decide)
     (by decide)⟩

/-- C3 (amended): in non-dev mode, starting from a connected transport, a
write that raises `OSError`/`SerialException` returns err with the handle
closed (back to disconnected); but a short write — the device accepting
fewer than `len(data)` bytes — returns err with the handle left open, as
does an unexpected non-serial exception; a full write returns ok. -/
theorem C3_write_error_handling (s : SerialConnection) (now : ℚ) (connectOk : Bool)
    (hdev : s.dev_mode = false) (hconn : s.serial = some ()) :
    (∀ n dataLen : Nat, n ≠ dataLen →
      (s.write now connectOk (.wrote n) dataLen).1 = false
      ∧ (s.write now connectOk (.wrote n) dataLen).2.serial = some ())
    ∧ (∀ dataLen : Nat, (s.write now connectOk .raisesSerialExc dataLen).1 = false
        ∧ (s.write now connectOk .raisesSerialExc dataLen).2.serial = none)
    ∧ (∀ dataLen : Nat, (s.write now connectOk .raisesOther dataLen).1 = false
        ∧ (s.write now connectOk .raisesOther dataLen).2.serial = some ())
    ∧ (∀ dataLen : Nat, (s.write now connectOk (.wrote dataLen) dataLen).1 = true) := by
  refine ⟨?_, ?_, ?_, ?_⟩
  · intro n dataLen hne
    unfold SerialConnection.write SerialConnection.write_attempt
    simp [hdev, hconn, hne]
  · intro dataLen
    unfold SerialConnection.write SerialConnection.write_attempt
    simp [hdev, hconn]
  · intro dataLen
    unfold SerialConnection.write SerialConnection.write_attempt
    simp [hdev, hconn]
  · intro dataLen
    unfold SerialConnection.write SerialConnection.write_attempt
    simp [hdev, hconn]

/-- C3 counterexample: a short write (3 of 5 bytes accepted) returns err
but leaves the serial handle open — the transport is not back in the
disconnected state. -/
theorem C3_counterexample :
    (SerialConnection.write ⟨false, some (), 0, 0, 1000, 1000, 60000, 10⟩
      0 false (.wrote 3) 5).1 = false
    ∧ (SerialConnection.write ⟨false, some (), 0, 0, 1000, 1000, 60000, 10⟩
        0 false (.wrote 3) 5).2.serial ≠ none := by
  refine ⟨rfl, by decide⟩

/-- Witness for C3 (amended) at a concrete input: a serial exception closes
the handle; the short write of the counterexample does not. -/
theorem C3_write_error_handling_witness :
    (SerialConnection.write ⟨false, some (), 0, 0, 1000, 1000, 60000, 10⟩
      0 false .raisesSerialExc 5).1 = false
    ∧ (SerialConnection.write ⟨false, some (), 0, 0, 1000, 1000, 60000, 10⟩
        0 false .raisesSerialExc 5).2.serial = none :=
  (C3_write_error_handling ⟨false, some (), 0, 0, 1000, 1000, 60000, 10⟩
    0 false rfl rfl).2.1 5

/-- C5: pausing at `t1` and resuming at `t2` credits exactly the paused
interval `t2 - t1` to `time_paused`, so `advance_frame` fires exactly when
the frame's wall-clock display time — elapsed time since `frame_start_time`
minus all time spent paused — reaches `duration_ms`; `pause()` on an
already-paused state and `resume()` on a non-paused state change nothing.
(`t1 ≠ 0` because Python's `if self.paused and self.paused_at:` treats a
stored clock reading of exactly 0.0 as falsy.) -/
theorem C5_pause_resume_timing (s : ContentState) (fr : Frame) (d : Nat) (t1 t2 : ℚ)
    (hp : s.paused = false) (hpa : s.paused_at = none)
    (hf : s.current_frame? = some fr) (hd : fr.duration_ms = some d) (hd0 : d ≠ 0)
    (ht1 : t1 ≠ 0) :
    (∀ (r : ContentState) (u : ℚ), r.paused = true → r.pause u = r)
    ∧ (∀ (r : ContentState) (u : ℚ), r.paused = false → r.resume u = r)
    ∧ (s.pause t1).resume t2 = { s with time_paused := s.time_paused + (t2 - t1) }
    ∧ (∀ now : ℚ, (((s.pause t1).resume t2).advance_frame now).1 = true ↔
        (d : ℚ) ≤ (now - s.frame_start_time - s.time_paused - (t2 - t1)) * 1000) := by
  obtain ⟨cont, fi, lc, fst, p, pa, tp⟩ := s
  simp only at hp hpa hf
  subst hp
  subst hpa
  have hresumed : ((⟨cont, fi, lc, fst, false, none, tp⟩ : ContentState).pause t1).resume t2 =
      (⟨cont, fi, lc, fst, false, none, tp + (t2 - t1)⟩ : ContentState) := by
    unfold ContentState.pause ContentState.resume
    simp [ht1]
  refine ⟨?_, ?_, hresumed, ?_⟩
  · intro r u hr
    unfold ContentState.pause
    rw [if_pos hr]
  · intro r u hr
    unfold ContentState.resume
    rcases hpa2 : r.paused_at with _ | t
    · rfl
    · simp [hr]
  · intro now
    rw [hresumed]
    unfold ContentState.advance_frame
    simp only [Bool.false_eq_true, if_false]
    simp only [ContentState.current_frame?] at hf ⊢
    rw [hf]
    dsimp only
    rw [hd]
    dsimp only
    rw [if_neg hd0]
    rw [show now - fst - (tp + (t2 - t1)) = now - fst - tp - (t2 - t1) from by ring]
    by_cases hcond : (d : ℚ) ≤ (now - fst - tp - (t2 - t1)) * 1000
    · rw [if_pos hcond]
      split_ifs <;> simp [hcond]
    · rw [if_neg hcond]
      simp [hcond]

/-- Witness for C5 at a concrete input: a frame of 100 ms paused from 1 to
2 advances at clock reading 3 (2000 ms of display time). -/
theorem C5_pause_resume_timing_witness :
    ((((ContentState.init 0
        ⟨"a", [⟨[], 1, 1, some 100⟩], ⟨false, none, 0, true⟩⟩).pause 1).resume 2).advance_frame
      3).1 = true :=
  ((C5_pause_resume_timing
      (ContentState.init 0 ⟨"a", [⟨[], 1, 1, some 100⟩], ⟨false, none, 0, true⟩⟩)
      ⟨[], 1, 1, some 100⟩ 100 1 2 rfl rfl rfl rfl (by decide)
      (by decide)).2.2.2 3).mpr (by norm_num [ContentState.init])

/-- The queue invariant: non-increasing priorities (highest first). -/
def QueueSorted (l : List ContentState) : Prop :=
  l.Pairwise fun a b => b.prio ≤ a.prio

/-- The insertion loop inserts after the longest prefix of items with
priority at least the new item's. -/
theorem insertByPriority_eq (s : ContentState) (l : List ContentState) :
    insertByPriority s l =
      l.takeWhile (fun t => decide (s.prio ≤ t.prio)) ++
        s :: l.dropWhile (fun t => decide (s.prio ≤ t.prio)) := by
  induction l with
  | nil => rfl
  | cons t rest ih =>
    unfold insertByPriority
    by_cases hle : s.prio ≤ t.prio
    · rw [if_pos hle, ih, List.takeWhile_cons, List.dropWhile_cons]
      simp [hle]
    · rw [if_neg hle, List.takeWhile_cons, List.dropWhile_cons]
      simp [hle]

/-- Insertion grows the queue by exactly one state. -/
theorem insertByPriority_length (s : ContentState) (l : List ContentState) :
    (insertByPriority s l).length = l.length + 1 := by
  induction l with
  | nil => rfl
  | cons t rest ih =>
    unfold insertByPriority
    by_cases hle : s.prio ≤ t.prio
    · rw [if_pos hle]
      simp [ih]
    · rw [if_neg hle]
      simp

/-- Membership in the insertion result. -/
theorem insertByPriority_mem (s x : ContentState) (l : List ContentState) :
    x ∈ insertByPriority s l ↔ x = s ∨ x ∈ l := by
  induction l with
  | nil => simp [insertByPriority]
  | cons t rest ih =>
    unfold insertByPriority
    by_cases hle : s.prio ≤ t.prio
    · rw [if_pos hle]
      simp only [List.mem_cons, ih]
      tauto
    · rw [if_neg hle]
      simp only [List.mem_cons]

/-- Insertion preserves the non-increasing priority invariant. -/
theorem insertByPriority_sorted (s : ContentState) (l : List ContentState)
    (h : QueueSorted l) : QueueSorted (insertByPriority s l) := by
  induction l with
  | nil => simp [insertByPriority, QueueSorted]
  | cons t rest ih =>
    rw [QueueSorted, List.pairwise_cons] at h
    obtain ⟨hall, hrest⟩ := h
    unfold insertByPriority
    by_cases hle : s.prio ≤ t.prio
    · rw [if_pos hle]
      rw [QueueSorted, List.pairwise_cons]
      refine ⟨?_, ih hrest⟩
      intro x hx
      rcases (insertByPriority_mem s x rest).mp hx with rfl | hx
      · exact hle
      · exact hall x hx
    · rw [if_neg hle]
      rw [QueueSorted, List.pairwise_cons]
      constructor
      · intro x hx
        rcases List.mem_cons.mp hx with rfl | hx
        · omega
        · have := hall x hx
          omega
      · rw [List.pairwise_cons]
        exact ⟨hall, hrest⟩

/-- In a priority-sorted queue, everything after the insertion point has
priority strictly below the new item's. -/
theorem dropWhile_lt_of_sorted (p : Nat) (l : List ContentState)
    (h : QueueSorted l) :
    ∀ x ∈ l.dropWhile (fun t => decide (p ≤ t.prio)), x.prio < p := by
  induction l with
  | nil => simp
  | cons t rest ih =>
    rw [QueueSorted, List.pairwise_cons] at h
    obtain ⟨hall, hrest⟩ := h
    rw [List.dropWhile_cons]
    by_cases hle : p ≤ t.prio
    · rw [if_pos (by simpa using hle)]
      exact ih hrest
    · rw [if_neg (by simpa using hle)]
      intro x hx
      rcases List.mem_cons.mp hx with rfl | hx
      · omega
      · have := hall x hx
        omega

/-- When every queued item has priority at least the new one's, the
insertion point is the very end of the queue. -/
theorem insertByPriority_all_ge (s : ContentState) (l : List ContentState)
    (h : ∀ t ∈ l, s.prio ≤ t.prio) : insertByPriority s l = l ++ [s] := by
  induction l with
  | nil => rfl
  | cons t rest ih =>
    unfold insertByPriority
    rw [if_pos (h t (List.mem_cons_self _ _))]
    rw [ih fun x hx => h x (List.mem_cons_of_mem _ hx)]
    rfl

/-- C4: `add_content` starts the content immediately when nothing is
current; interrupts (pausing and stacking the current state) when the new
priority is strictly higher and the current content is interruptible; and in
every other case inserts the new state into the queue immediately after the
last item of priority `≥` the new one — keeping the queue priority-descending
with FIFO order among equal priorities.  (The queue and interrupted stack
are assumed below their bounds, so no eviction interferes; C6 covers
eviction.) -/
theorem C4_add_content (q : ContentQueue) (now : ℚ) (c : Content)
    (hlen : q.queue.length < MAX_QUEUED_ITEMS)
    (hsorted : QueueSorted q.queue) :
    (q.current = none →
      q.add_content now c = { q with current := some (ContentState.init now c) })
    ∧ (∀ cur, q.current = some cur → cur.prio < c.playback.priority →
        cur.content.playback.interruptible = true →
        q.interrupted.length < MAX_INTERRUPTED_ITEMS →
        q.add_content now c =
          { q with current := some (ContentState.init now c),
                   interrupted := q.interrupted ++ [cur.pause now] })
    ∧ (∀ cur, q.current = some cur →
        (c.playback.priority ≤ cur.prio ∨ cur.content.playback.interruptible = false) →
        (q.add_content now c).current = q.current
        ∧ (q.add_content now c).interrupted = q.interrupted
        ∧ (q.add_content now c).queue =
            q.queue.takeWhile (fun t => decide (c.playback.priority ≤ t.prio))
              ++ ContentState.init now c ::
                q.queue.dropWhile (fun t => decide (c.playback.priority ≤ t.prio))
        ∧ (∀ x ∈ q.queue.takeWhile (fun t => decide (c.playback.priority ≤ t.prio)),
            c.playback.priority ≤ x.prio)
        ∧ (∀ x ∈ q.queue.dropWhile (fun t => decide (c.playback.priority ≤ t.prio)),
            x.prio < c.playback.priority)
        ∧ QueueSorted (q.add_content now c).queue) := by
  have hprio : (ContentState.init now c).prio = c.playback.priority := rfl
  refine ⟨?_, ?_, ?_⟩
  · intro hc
    unfold ContentQueue.add_content
    rw [hc]
  · intro cur hc hlt hint hibound
    unfold ContentQueue.add_content
    rw [hc]
    dsimp only
    rw [if_pos hlt, if_pos hint]
    rw [if_neg (by simp only [List.length_append, List.length_cons,
      List.length_nil, MAX_INTERRUPTED_ITEMS] at hibound ⊢; omega)]
  · intro cur hc hcond
    have hqueue : q.add_content now c = q.add_to_queue (ContentState.init now c) := by
      unfold ContentQueue.add_content
      rw [hc]
      dsimp only
      rcases hcond with hle | hni
      · rw [if_neg (by omega)]
      · by_cases hlt : cur.prio < c.playback.priority
        · rw [if_pos hlt, if_neg (by simp [hni])]
        · rw [if_neg hlt]
    have hnodrop : q.add_to_queue (ContentState.init now c) =
        { q with queue := insertByPriority (ContentState.init now c) q.queue } := by
      unfold ContentQueue.add_to_queue
      dsimp only
      rw [if_neg (by rw [insertByPriority_length]; omega)]
    rw [hqueue, hnodrop]
    refine ⟨rfl, rfl, ?_, ?_, ?_, ?_⟩
    · rw [show (insertByPriority (ContentState.init now c) q.queue) =
        q.queue.takeWhile (fun t => decide ((ContentState.init now c).prio ≤ t.prio))
          ++ ContentState.init now c ::
            q.queue.dropWhile (fun t => decide ((ContentState.init now c).prio ≤ t.prio))
        from insertByPriority_eq _ _]
      rfl
    · intro x hx
      have := List.mem_takeWhile_imp hx
      simpa using this
    · exact dropWhile_lt_of_sorted c.playback.priority q.queue hsorted
    · exact insertByPriority_sorted _ _ hsorted

/-- Witness for C4 at a concrete input: adding to an idle queue makes the
content current immediately. -/
theorem C4_add_content_witness :
    ContentQueue.add_content ⟨none, [], []⟩ 0
        ⟨"a", [⟨[], 1, 1, none⟩], ⟨false, none, 3, true⟩⟩ =
      ⟨some (ContentState.init 0 ⟨"a", [⟨[], 1, 1, none⟩], ⟨false, none, 3, true⟩⟩),
       [], []⟩ :=
  (C4_add_content ⟨none, [], []⟩ 0 ⟨"a", [⟨[], 1, 1, none⟩], ⟨false, none, 3, true⟩⟩
    (by decide) (by simp [QueueSorted])).1 rfl

/-- C6: `add_content` keeps the queue within `MAX_QUEUED_ITEMS` (50) and the
interrupted stack within `MAX_INTERRUPTED_ITEMS` (10); a full queue whose
items all have priority `≥` the incoming priority drops the newly admitted
tail item (the queue is unchanged, the head kept); a full interrupted stack
drops its oldest (bottom) entry, keeping the newly pushed one on top. -/
theorem C6_memory_bounds (q : ContentQueue) (now : ℚ) (c : Content)
    (hq : q.queue.length ≤ MAX_QUEUED_ITEMS)
    (hi : q.interrupted.length ≤ MAX_INTERRUPTED_ITEMS) :
    ((q.add_content now c).queue.length ≤ MAX_QUEUED_ITEMS
      ∧ (q.add_content now c).interrupted.length ≤ MAX_INTERRUPTED_ITEMS)
    ∧ (∀ cur, q.current = some cur → q.queue.length = MAX_QUEUED_ITEMS →
        (c.playback.priority ≤ cur.prio ∨ cur.content.playback.interruptible = false) →
        (∀ t ∈ q.queue, c.playback.priority ≤ t.prio) →
        (q.add_content now c).queue = q.queue)
    ∧ (∀ cur, q.current = some cur → cur.prio < c.playback.priority →
        cur.content.playback.interruptible = true →
        q.interrupted.length = MAX_INTERRUPTED_ITEMS →
        (q.add_content now c).interrupted = q.interrupted.drop 1 ++ [cur.pause now]) := by
  have haddq : ∀ s : ContentState, (q.add_to_queue s).queue.length ≤ MAX_QUEUED_ITEMS
      ∧ (q.add_to_queue s).interrupted = q.interrupted := by
    intro s
    unfold ContentQueue.add_to_queue
    dsimp only
    constructor
    · by_cases hfull : MAX_QUEUED_ITEMS < (insertByPriority s q.queue).length
      · rw [if_pos hfull]
        simp only [List.length_dropLast, insertByPriority_length]
        omega
      · rw [if_neg hfull]
        omega
    · rfl
  refine ⟨?_, ?_, ?_⟩
  · unfold ContentQueue.add_content
    rcases hc : q.current with _ | cur
    · exact ⟨hq, hi⟩
    · dsimp only
      by_cases hlt : cur.prio < c.playback.priority
      · rw [if_pos hlt]
        by_cases hint : cur.content.playback.interruptible = true
        · rw [if_pos hint]
          constructor
          · exact hq
          · by_cases hfull :
                MAX_INTERRUPTED_ITEMS < (q.interrupted ++ [cur.pause now]).length
            · rw [if_pos hfull]
              simp only [List.length_append, List.length_cons, List.length_nil]
                at hfull
              dsimp only
              simp only [List.length_drop, List.length_append, List.length_cons,
                List.length_nil]
              omega
            · rw [if_neg hfull]
              simp only [List.length_append, List.length_cons, List.length_nil] at hfull
              dsimp only
              simp only [List.length_append, List.length_cons, List.length_nil]
              omega
        · rw [if_neg hint]
          exact ⟨(haddq (ContentState.init now c)).1,
            by rw [(haddq (ContentState.init now c)).2]; exact hi⟩
      · rw [if_neg hlt]
        exact ⟨(haddq (ContentState.init now c)).1,
          by rw [(haddq (ContentState.init now c)).2]; exact hi⟩
  · intro cur hc hfull hcond hall
    have hq1 : q.add_content now c = q.add_to_queue (ContentState.init now c) := by
      unfold ContentQueue.add_content
      rw [hc]
      dsimp only
      rcases hcond with hle | hni
      · rw [if_neg (by omega)]
      · by_cases hlt : cur.prio < c.playback.priority
        · rw [if_pos hlt, if_neg (by simp [hni])]
        · rw [if_neg hlt]
    rw [hq1]
    unfold ContentQueue.add_to_queue
    dsimp only
    rw [insertByPriority_all_ge _ _ (by simpa using hall)]
    rw [if_pos (by
      simp only [List.length_append, List.length_cons, List.length_nil]
      omega)]
    exact List.dropLast_concat
  · intro cur hc hlt hint hfull
    unfold ContentQueue.add_content
    rw [hc]
    dsimp only
    rw [if_pos hlt, if_pos hint]
    rw [if_pos (by
      simp only [List.length_append, List.length_cons, List.length_nil]
      omega)]
    dsimp only
    rw [List.drop_append_of_le_length (by rw [hfull]; decide)]

/-- Witness for C6 at a concrete input: the bounds hold after adding to an
empty queue. -/
theorem C6_memory_bounds_witness :
    (ContentQueue.add_content ⟨none, [], []⟩ 0
        ⟨"a", [⟨[], 1, 1, none⟩], ⟨false, none, 0, true⟩⟩).queue.length ≤
      MAX_QUEUED_ITEMS
    ∧ (ContentQueue.add_content ⟨none, [], []⟩ 0
        ⟨"a", [⟨[], 1, 1, none⟩], ⟨false, none, 0, true⟩⟩).interrupted.length ≤
      MAX_INTERRUPTED_ITEMS :=
  (C6_memory_bounds ⟨none, [], []⟩ 0 ⟨"a", [⟨[], 1, 1, none⟩], ⟨false, none, 0, true⟩⟩
    (by decide) (by decide)).1
